import Mathlib

/-!
Shallow embedding of the `correct_word` crate (files `src/levenshtein.rs` and
`src/lib.rs`).

Modelling conventions:
* A Rust `String` is a `List Char` (Lean `Char` and Rust `char` are both
  Unicode scalar values); `String::len` (a UTF-8 **byte** count) is `byteLen`,
  while `chars()` iterates the list itself.
* `Vec` indexing, which panics when out of bounds, is `List.get?`; a panic is
  propagated as `none`, so fallible computations live in `Option`.
* `usize` arithmetic is `Nat` (row values are bounded by the string lengths,
  far below 2^64, so wrap-around is unreachable); the `as u16` casts, which do
  truncate for strings of 65536 bytes or more, are modelled exactly by
  `toU16 n = n % 2^16`.
* `f64` arithmetic in `levenshtein_similarity` is idealized as exact rational
  arithmetic, with `none` standing for a non-finite result (NaN/∞, arising
  from division by zero).  At every concrete input used in the theorems below
  the `f64` computation is exact, so the idealization agrees with IEEE-754
  binary64 semantics there.
-/

/-- Number of bytes of the UTF-8 encoding of one Unicode scalar value.
Summed over a string this is Rust's `String::len`. -/
def charUtf8Len (c : Char) : Nat :=
  if c.toNat < 0x80 then 1
  else if c.toNat < 0x800 then 2
  else if c.toNat < 0x10000 then 3
  else 4

/-- Rust `String::len`: the number of UTF-8 bytes of the string. -/
def byteLen (s : List Char) : Nat := (s.map charUtf8Len).sum

/-- Rust `as u16` cast: truncation modulo 2^16. -/
def toU16 (n : Nat) : Nat := n % 65536

/-- Inner loop of `levenshtein_distance` (`src/levenshtein.rs` lines 42-47):
for each `(j, c2)` in `string2.chars().enumerate()` push
`min(previous_row[j+1]+1, current_row[j]+1, previous_row[j] + (c1==c2 ? 0 : 1))`
onto `current_row`.  `cur` is the accumulated `current_row`; an out-of-bounds
index (a Rust panic) yields `none`. -/
def levInner (prev : List Nat) (c1 : Char) : List Char → Nat → List Nat → Option (List Nat)
  | [], _, cur => some cur
  | c2 :: rest, j, cur =>
    match prev.get? (j + 1), cur.get? j, prev.get? j with
    | some pj1, some cj, some pj =>
      levInner prev c1 rest (j + 1)
        (cur ++ [min (min (pj1 + 1) (cj + 1)) (pj + (if c1 = c2 then 0 else 1))])
    | _, _, _ => none

/-- Outer loop of `levenshtein_distance` (`src/levenshtein.rs` lines 40-49):
for each `(i, c1)` in `string1.chars().enumerate()` start
`current_row = vec![i+1]`, run the inner loop, and let the result become
`previous_row`. -/
def levOuter (string2 : List Char) : List Char → Nat → List Nat → Option (List Nat)
  | [], _, prev => some prev
  | c1 :: rest, i, prev =>
    match levInner prev c1 string2 0 [i + 1] with
    | some cur => levOuter string2 rest (i + 1) cur
    | none => none

/-- Body of `levenshtein_distance` after the argument swap
(`src/levenshtein.rs` lines 35-51): the early return for empty `string2`,
the row `previous_row = (0..string2.len()+1).collect()`, the double loop,
and the final read `previous_row[string2.len()] as u16` — note that both the
row size and the final index use the **byte** length of `string2` while the
loops advance per **char**, so the final read panics (`none`) whenever
`string2` contains a multi-byte character and `string1` is non-empty. -/
def levenshtein_run (string1 string2 : List Char) : Option Nat :=
  if string2 = [] then some (toU16 (byteLen string1))
  else
    match levOuter string2 string1 0 (List.range (byteLen string2 + 1)) with
    | some prev => (prev.get? (byteLen string2)).map toU16
    | none => none

/-- Rust `levenshtein_distance` (`src/levenshtein.rs` lines 30-52).  The
source performs the swap `if string1.len() < string2.len()` by a self-call of
depth one (after the swap the guard is false), which is unfolded here into a
direct call of the post-swap body `levenshtein_run`; the lemma
`levenshtein_distance_eq` below recovers the source's recursive equation. -/
def levenshtein_distance (string1 string2 : List Char) : Option Nat :=
  if byteLen string1 < byteLen string2 then levenshtein_run string2 string1
  else levenshtein_run string1 string2

/-- Sanity check that the unfolded definition satisfies the source's
self-recursive equation verbatim. -/
theorem levenshtein_distance_eq (string1 string2 : List Char) :
    levenshtein_distance string1 string2 =
      if byteLen string1 < byteLen string2 then levenshtein_distance string2 string1
      else levenshtein_run string1 string2 := by
  unfold levenshtein_distance
  by_cases h : byteLen string1 < byteLen string2
  · simp only [if_pos h]
    rw [if_neg (by omega)]
  · simp only [if_neg h]

/-- Rust `levenshtein_similarity` (`src/levenshtein.rs` lines 69-72):
`1.0 - (distance as f64 / max(string1.len(), string2.len()) as f64)`.
The outer `Option` is a panic propagated from `levenshtein_distance`; the
inner `Option` is the value of the `f64` expression, `none` standing for a
non-finite result (when `max` of the byte lengths is 0, i.e. both strings are
empty, the code divides by zero: `0.0/0.0 = NaN`).  There is no special case
for two empty strings in the source. -/
def levenshtein_similarity (string1 string2 : List Char) : Option (Option ℚ) :=
  match levenshtein_distance string1 string2 with
  | none => none
  | some distance =>
    let m := max (byteLen string1) (byteLen string2)
    if m = 0 then some none
    else some (some (1 - (distance : ℚ) / (m : ℚ)))

/-- Rust `Algorithm` enum (`src/lib.rs` lines 102-104). -/
inductive Algorithm where
  | Levenshtein
deriving DecidableEq

/-- Rust `CorrectWord` struct (`src/lib.rs` lines 82-85). -/
structure CorrectWord where
  word : Option (List Char)
  confidence : Nat
deriving DecidableEq

/-- The `match algorithm` dispatch inside the loop of `correct_word`
(`src/lib.rs` lines 147-151): compute `levenshtein_distance(input, option)`. -/
def algoDistance (algorithm : Algorithm) (input option : List Char) : Option Nat :=
  match algorithm with
  | Algorithm.Levenshtein => levenshtein_distance input option

/-- The `options.iter().for_each` loop of `correct_word` (`src/lib.rs` lines
146-156), carrying the mutable `best` / `best_distance` pair: update the pair
exactly when the computed distance is strictly smaller than `best_distance`.
A panic inside the loop propagates as `none`. -/
def scanBest (algorithm : Algorithm) (input : List Char) :
    List (List Char) → List Char → Nat → Option (List Char × Nat)
  | [], best, best_distance => some (best, best_distance)
  | option :: rest, best, best_distance =>
    match algoDistance algorithm input option with
    | none => none
    | some distance =>
      if distance < best_distance then scanBest algorithm input rest option distance
      else scanBest algorithm input rest best best_distance

/-- Rust `correct_word` (`src/lib.rs` lines 138-169): scan the options from
`best = String::new()`, `best_distance = u16::MAX`, then return
`word = None` when `best_distance > threshold.unwrap_or(0) as u16` and
`word = Some(best)` otherwise, with `confidence = best_distance` in both
cases.  The `u8` threshold is modelled as `Fin 256`. -/
def correct_word (algorithm : Algorithm) (input : List Char)
    (options : List (List Char)) (threshold : Option (Fin 256)) : Option CorrectWord :=
  match scanBest algorithm input options [] 65535 with
  | none => none
  | some (best, best_distance) =>
    if (threshold.getD 0).val < best_distance then
      some { word := none, confidence := best_distance }
    else
      some { word := some best, confidence := best_distance }

/-- List of the distances of the options to the input, `none` when any of the
single computations panics.  Used to phrase hypotheses of the selector
theorems. -/
def distList (algorithm : Algorithm) (input : List Char) :
    List (List Char) → Option (List Nat)
  | [] => some []
  | option :: rest =>
    match algoDistance algorithm input option, distList algorithm input rest with
    | some d, some ds => some (d :: ds)
    | _, _ => none

/-! Helper lemmas -/

theorem toU16_lt (n : Nat) : toU16 n < 65536 := Nat.mod_lt _ (by omega)

theorem levenshtein_run_lt {s1 s2 : List Char} {d : Nat}
    (h : levenshtein_run s1 s2 = some d) : d < 65536 := by
  unfold levenshtein_run at h
  by_cases h2 : s2 = []
  · rw [if_pos h2] at h
    cases h
    exact toU16_lt _
  · rw [if_neg h2] at h
    cases hl : levOuter s2 s1 0 (List.range (byteLen s2 + 1)) with
    | none => simp only [hl] at h; exact Option.noConfusion h
    | some prev =>
      simp only [hl] at h
      cases hg : prev.get? (byteLen s2) with
      | none => simp only [hg, Option.map_none'] at h; exact Option.noConfusion h
      | some x =>
        simp only [hg, Option.map_some', Option.some.injEq] at h
        subst h
        exact toU16_lt _

theorem levenshtein_distance_lt {s1 s2 : List Char} {d : Nat}
    (h : levenshtein_distance s1 s2 = some d) : d < 65536 := by
  unfold levenshtein_distance at h
  by_cases hb : byteLen s1 < byteLen s2
  · rw [if_pos hb] at h; exact levenshtein_run_lt h
  · rw [if_neg hb] at h; exact levenshtein_run_lt h

theorem algoDistance_lt {a : Algorithm} {i o : List Char} {d : Nat}
    (h : algoDistance a i o = some d) : d < 65536 := by
  cases a
  exact levenshtein_distance_lt h

theorem distList_lt {a : Algorithm} {i : List Char} :
    ∀ {opts : List (List Char)} {ds : List Nat},
      distList a i opts = some ds → ∀ x ∈ ds, x < 65536 := by
  intro opts
  induction opts with
  | nil =>
    intro ds h x hx
    cases h
    cases hx
  | cons o rest ih =>
    intro ds h x hx
    unfold distList at h
    cases hd : algoDistance a i o with
    | none => rw [hd] at h; cases h
    | some d =>
      rw [hd] at h
      cases hr : distList a i rest with
      | none => rw [hr] at h; cases h
      | some ds' =>
        rw [hr] at h
        cases h
        rcases List.mem_cons.mp hx with h1 | h2
        · subst h1; exact algoDistance_lt hd
        · exact ih hr x h2

theorem foldl_min_le_init : ∀ (l : List Nat) (d0 : Nat), List.foldl min d0 l ≤ d0 := by
  intro l
  induction l with
  | nil => intro d0; exact Nat.le_refl d0
  | cons x xs ih =>
    intro d0
    calc List.foldl min (min d0 x) xs ≤ min d0 x := ih (min d0 x)
    _ ≤ d0 := Nat.min_le_left d0 x

theorem foldl_min_le_mem : ∀ (l : List Nat) (d0 x : Nat), x ∈ l → List.foldl min d0 l ≤ x := by
  intro l
  induction l with
  | nil => intro d0 x hx; cases hx
  | cons y ys ih =>
    intro d0 x hx
    rcases List.mem_cons.mp hx with h1 | h2
    · subst h1
      calc List.foldl min (min d0 x) ys ≤ min d0 x := foldl_min_le_init ys (min d0 x)
      _ ≤ x := Nat.min_le_right d0 x
    · exact ih (min d0 y) x h2

theorem le_foldl_min : ∀ (l : List Nat) (d0 c : Nat),
    c ≤ d0 → (∀ x ∈ l, c ≤ x) → c ≤ List.foldl min d0 l := by
  intro l
  induction l with
  | nil => intro d0 c h _; exact h
  | cons y ys ih =>
    intro d0 c h hall
    exact ih (min d0 y) c (Nat.le_min.mpr ⟨h, hall y (List.mem_cons_self y ys)⟩)
      (fun x hx => hall x (List.mem_cons_of_mem y hx))

theorem scanBest_foldl {a : Algorithm} {i : List Char} :
    ∀ (opts : List (List Char)) (ds : List Nat) (b0 : List Char) (d0 : Nat),
      distList a i opts = some ds →
      ∃ b, scanBest a i opts b0 d0 = some (b, List.foldl min d0 ds) := by
  intro opts
  induction opts with
  | nil =>
    intro ds b0 d0 h
    cases h
    exact ⟨b0, rfl⟩
  | cons o rest ih =>
    intro ds b0 d0 h
    unfold distList at h
    cases hd : algoDistance a i o with
    | none => rw [hd] at h; cases h
    | some d =>
      rw [hd] at h
      cases hr : distList a i rest with
      | none => rw [hr] at h; cases h
      | some ds' =>
        rw [hr] at h
        cases h
        unfold scanBest
        simp only [hd]
        by_cases hlt : d < d0
        · rw [if_pos hlt]
          have hmin : min d0 d = d := Nat.min_eq_right (Nat.le_of_lt hlt)
          rcases ih ds' o d hr with ⟨b, hb⟩
          exact ⟨b, by rw [hb, List.foldl_cons, hmin]⟩
        · rw [if_neg hlt]
          have hmin : min d0 d = d0 := Nat.min_eq_left (Nat.le_of_not_lt hlt)
          rcases ih ds' b0 d0 hr with ⟨b, hb⟩
          exact ⟨b, by rw [hb, List.foldl_cons, hmin]⟩

theorem scanBest_keep {a : Algorithm} {i : List Char} :
    ∀ (opts : List (List Char)) (b0 : List Char) (d0 : Nat),
      (∀ x ∈ opts, ∃ dx, algoDistance a i x = some dx ∧ d0 ≤ dx) →
      scanBest a i opts b0 d0 = some (b0, d0) := by
  intro opts
  induction opts with
  | nil => intro b0 d0 _; rfl
  | cons o rest ih =>
    intro b0 d0 h
    rcases h o (List.mem_cons_self o rest) with ⟨dx, hdx, hle⟩
    unfold scanBest
    simp only [hdx]
    rw [if_neg (Nat.not_lt.mpr hle)]
    exact ih b0 d0 (fun x hx => h x (List.mem_cons_of_mem o hx))

theorem scanBest_gt {a : Algorithm} {i : List Char} {m : Nat} :
    ∀ (opts : List (List Char)) (b0 : List Char) (d0 : Nat), m < d0 →
      (∀ x ∈ opts, ∃ dx, algoDistance a i x = some dx ∧ m < dx) →
      ∃ b d, scanBest a i opts b0 d0 = some (b, d) ∧ m < d := by
  intro opts
  induction opts with
  | nil => intro b0 d0 h0 _; exact ⟨b0, d0, rfl, h0⟩
  | cons o rest ih =>
    intro b0 d0 h0 h
    rcases h o (List.mem_cons_self o rest) with ⟨dx, hdx, hgt⟩
    unfold scanBest
    simp only [hdx]
    by_cases hlt : dx < d0
    · rw [if_pos hlt]
      exact ih o dx hgt (fun x hx => h x (List.mem_cons_of_mem o hx))
    · rw [if_neg hlt]
      exact ih b0 d0 h0 (fun x hx => h x (List.mem_cons_of_mem o hx))

theorem scanBest_mem {a : Algorithm} {i : List Char} :
    ∀ (opts : List (List Char)) (b0 : List Char) (d0 : Nat) (b : List Char) (d : Nat),
      scanBest a i opts b0 d0 = some (b, d) → (b = b0 ∧ d = d0) ∨ b ∈ opts := by
  intro opts
  induction opts with
  | nil =>
    intro b0 d0 b d h
    cases h
    exact Or.inl ⟨rfl, rfl⟩
  | cons o rest ih =>
    intro b0 d0 b d h
    unfold scanBest at h
    cases hd : algoDistance a i o with
    | none => rw [hd] at h; cases h
    | some dv =>
      simp only [hd] at h
      by_cases hlt : dv < d0
      · rw [if_pos hlt] at h
        rcases ih o dv b d h with ⟨hb, _⟩ | hmem
        · exact Or.inr (by rw [hb]; exact List.mem_cons_self o rest)
        · exact Or.inr (List.mem_cons_of_mem o hmem)
      · rw [if_neg hlt] at h
        rcases ih b0 d0 b d h with hl | hmem
        · exact Or.inl hl
        · exact Or.inr (List.mem_cons_of_mem o hmem)

theorem scanBest_cons (a : Algorithm) (i o : List Char) (rest : List (List Char))
    (b0 : List Char) (d0 : Nat) :
    scanBest a i (o :: rest) b0 d0 =
      match algoDistance a i o with
      | none => none
      | some distance =>
        if distance < d0 then scanBest a i rest o distance
        else scanBest a i rest b0 d0 := rfl

theorem scanBest_append {a : Algorithm} {i : List Char} :
    ∀ (xs ys : List (List Char)) (b0 : List Char) (d0 : Nat),
      scanBest a i (xs ++ ys) b0 d0 =
        match scanBest a i xs b0 d0 with
        | some (b, d) => scanBest a i ys b d
        | none => none := by
  intro xs
  induction xs with
  | nil => intro ys b0 d0; rfl
  | cons x xs ih =>
    intro ys b0 d0
    rw [List.cons_append, scanBest_cons, scanBest_cons]
    cases hd : algoDistance a i x with
    | none => simp only []
    | some dv =>
      simp only []
      by_cases hlt : dv < d0
      · simp only [if_pos hlt]
        exact ih ys x dv
      · simp only [if_neg hlt]
        exact ih ys b0 d0

/-- Evaluation of `correct_word` once the result of the scan over the options
is known: apply the threshold test of `src/lib.rs` lines 158-168. -/
theorem correct_word_eq_of_scan (a : Algorithm) (input : List Char)
    (options : List (List Char)) (thr : Option (Fin 256)) (b : List Char) (d : Nat)
    (h : scanBest a input options [] 65535 = some (b, d)) :
    correct_word a input options thr =
      if ((thr.getD 0 : Fin 256) : Nat) < d then some { word := none, confidence := d }
      else some { word := some b, confidence := d } := by
  unfold correct_word
  simp only [h]

/-! Claim theorems -/

/-- C1: the claim says `levenshtein_distance` is total over all string pairs,
including multi-byte text, with every index into the dynamic-programming rows
in bounds.  The code is not: for `string1 = "hello"` and `string2 = "é"`
(one code point, two UTF-8 bytes) the final read `previous_row[string2.len()]`
indexes position 2 of a row that has one entry per code point plus one, i.e.
length 2 — an out-of-bounds panic, modelled as `none`. -/
theorem levenshtein_distance_panics_on_multibyte :
    levenshtein_distance ['h', 'e', 'l', 'l', 'o'] ['é'] = none := by decide

/-- C2: the claim says `levenshtein_similarity("", "")` returns exactly 1.0
with the division by zero special-cased.  The code has no special case: it
computes `1.0 - (0 as f64 / 0 as f64) = 1.0 - NaN = NaN`, modelled here as
`some none` (the computation finishes but its value is NaN, not 1.0). -/
theorem levenshtein_similarity_empty_empty_nan :
    levenshtein_similarity [] [] = some none := rfl

/-- C3: the claim says the similarity denominator is the maximum of the
code-point lengths.  The code divides by the maximum of the **byte** lengths:
for `"é"` (1 code point, 2 bytes) against `"a"` the distance is 1 and the code
returns `1 - 1/2 = 1/2`, while the claimed formula gives
`1 - 1/max(1,1) = 0`. -/
theorem levenshtein_similarity_uses_byte_lengths :
    levenshtein_similarity ['é'] ['a'] = some (some ((1 : ℚ) / 2)) ∧
    (1 : ℚ) / 2 ≠ 1 - 1 / ((max (['é'] : List Char).length (['a'] : List Char).length : Nat) : ℚ) := by
  constructor
  · have hd : levenshtein_distance ['é'] ['a'] = some 1 := by decide
    have hb : max (byteLen ['é']) (byteLen ['a']) = 2 := by decide
    unfold levenshtein_similarity
    simp only [hd, hb]
    norm_num
  · have hl : max (['é'] : List Char).length (['a'] : List Char).length = 1 := by decide
    rw [hl]
    norm_num

/-- C4: the claim says `levenshtein_distance(a, "")` is the number of code
points of `a`.  The code returns `string1.len() as u16`, the number of
**bytes**: for `a = "é"` it returns 2 although `"é"` has 1 code point. -/
theorem levenshtein_distance_empty_counts_bytes :
    levenshtein_distance ['é'] [] = some 2 ∧ (['é'] : List Char).length = 1 := by
  constructor
  · decide
  · rfl

/-- C5: when every per-candidate distance computation completes, the candidate
list is non-empty (witnessed by the membership hypothesis) and the smallest
distance `m` found among the candidates exceeds the threshold (default 0),
`correct_word` returns `word = none` with `confidence = m` — the actual best
distance, not the `u16::MAX` sentinel. -/
theorem correct_word_no_match_reports_best (a : Algorithm) (input : List Char)
    (options : List (List Char)) (thr : Option (Fin 256)) (ds : List Nat) (m : Nat)
    (hds : distList a input options = some ds)
    (hmem : m ∈ ds) (hmin : ∀ x ∈ ds, m ≤ x)
    (hgt : ((thr.getD 0 : Fin 256) : Nat) < m) :
    correct_word a input options thr = some { word := none, confidence := m } := by
  have hm65 : m < 65536 := distList_lt hds m hmem
  have hfold : List.foldl min 65535 ds = m := by
    apply Nat.le_antisymm
    · exact foldl_min_le_mem ds 65535 m hmem
    · exact le_foldl_min ds 65535 m (by omega) hmin
  rcases scanBest_foldl options ds [] 65535 hds with ⟨b, hb⟩
  rw [hfold] at hb
  rw [correct_word_eq_of_scan a input options thr b m hb, if_pos hgt]

/-- Witness for C5 at a concrete input: `correct_word` on input `"aa"` with
candidates `["ab", "b"]` (distances 1 and 2) and the default threshold 0
reports no word and confidence 1. -/
theorem correct_word_no_match_reports_best_witness :
    correct_word Algorithm.Levenshtein ['a', 'a'] [['a', 'b'], ['b']] none
      = some { word := none, confidence := 1 } :=
  correct_word_no_match_reports_best Algorithm.Levenshtein ['a', 'a']
    [['a', 'b'], ['b']] none [1, 2] 1 (by decide) (by decide) (by decide) (by decide)

/-- C6: when the candidate list splits as `l1 ++ o1 :: l2 ++ o2 :: l3` where
`o1` and `o2` both achieve the best distance `m`, every candidate before `o1`
is strictly worse, every other candidate is no better, and `m` clears the
threshold, then `correct_word` returns the **first** best candidate `o1`:
the strict `<` comparison never lets the later equal-scoring `o2` replace
it. -/
theorem correct_word_first_tie_wins (a : Algorithm) (input o1 o2 : List Char)
    (l1 l2 l3 : List (List Char)) (thr : Option (Fin 256)) (m : Nat)
    (h1 : algoDistance a input o1 = some m)
    (h2 : algoDistance a input o2 = some m)
    (hl1 : ∀ x ∈ l1, ∃ dx, algoDistance a input x = some dx ∧ m < dx)
    (hl2 : ∀ x ∈ l2, ∃ dx, algoDistance a input x = some dx ∧ m ≤ dx)
    (hl3 : ∀ x ∈ l3, ∃ dx, algoDistance a input x = some dx ∧ m ≤ dx)
    (hthr : m ≤ ((thr.getD 0 : Fin 256) : Nat)) :
    correct_word a input (l1 ++ o1 :: (l2 ++ o2 :: l3)) thr
      = some { word := some o1, confidence := m } := by
  have hm65 : m < 65535 := by
    have := (thr.getD 0).isLt
    omega
  rcases scanBest_gt l1 [] 65535 (by omega) hl1 with ⟨b1, d1, hscan1, hd1⟩
  have hkeep : ∀ x ∈ l2 ++ o2 :: l3, ∃ dx, algoDistance a input x = some dx ∧ m ≤ dx := by
    intro x hx
    rcases List.mem_append.mp hx with hx2 | hx23
    · exact hl2 x hx2
    · rcases List.mem_cons.mp hx23 with h | hx3
      · subst h
        exact ⟨m, h2, Nat.le_refl m⟩
      · exact hl3 x hx3
  have hscan : scanBest a input (l1 ++ o1 :: (l2 ++ o2 :: l3)) [] 65535 = some (o1, m) := by
    rw [scanBest_append]
    simp only [hscan1]
    rw [scanBest_cons]
    simp only [h1, if_pos hd1]
    exact scanBest_keep (l2 ++ o2 :: l3) o1 m hkeep
  rw [correct_word_eq_of_scan a input _ thr o1 m hscan, if_neg (Nat.not_lt.mpr hthr)]

/-- Witness for C6 at a concrete input: for input `"he"` and candidates
`["world", "hi", "ha"]`, both `"hi"` and `"ha"` are at distance 1 and the
first of them, `"hi"`, is returned. -/
theorem correct_word_first_tie_wins_witness :
    correct_word Algorithm.Levenshtein ['h', 'e']
      [['w', 'o', 'r', 'l', 'd'], ['h', 'i'], ['h', 'a']] (some 5)
      = some { word := some ['h', 'i'], confidence := 1 } :=
  correct_word_first_tie_wins Algorithm.Levenshtein ['h', 'e'] ['h', 'i'] ['h', 'a']
    [['w', 'o', 'r', 'l', 'd']] [] [] (some 5) 1 (by decide) (by decide)
    (by
      intro x hx
      have h : x = ['w', 'o', 'r', 'l', 'd'] := List.mem_singleton.mp hx
      subst h
      exact ⟨5, by decide, by decide⟩)
    (by intro x hx; exact absurd hx (List.not_mem_nil x))
    (by intro x hx; exact absurd hx (List.not_mem_nil x))
    (by decide)

/-- C7: the claim says `levenshtein_distance` is symmetric for every pair.
It is not: `distance("ab", "é")` panics (the multi-byte `"é"` is the column
string and the final index is out of bounds) while the swapped call
`distance("é", "ab")` completes and returns 2. -/
theorem levenshtein_distance_asymmetric_on_multibyte :
    levenshtein_distance ['a', 'b'] ['é'] ≠ levenshtein_distance ['é'] ['a', 'b'] := by
  decide

/-- C8: the claim asserts `distance(a,c) <= distance(a,b) + distance(b,c)`
for every three strings.  For `a = "ab"`, `b = "é"`, `c = "a"` the two outer
legs exist (`distance(a,c) = 1`, `distance(b,c) = 1`) but `distance(a,b)`
panics, so no value exists for which the claimed inequality could hold at
this triple. -/
theorem levenshtein_distance_triangle_leg_panics :
    levenshtein_distance ['a', 'b'] ['a'] = some 1 ∧
    levenshtein_distance ['é'] ['a'] = some 1 ∧
    levenshtein_distance ['a', 'b'] ['é'] = none := by
  decide

/-- C9: for every algorithm, input and threshold (including the omitted one),
`correct_word` with an empty candidate list returns `word = none` and
`confidence = 65535`, the `u16::MAX` sentinel the best score was initialized
to. -/
theorem correct_word_empty_options (a : Algorithm) (input : List Char)
    (thr : Option (Fin 256)) :
    correct_word a input [] thr = some { word := none, confidence := 65535 } := by
  have h : scanBest a input [] [] 65535 = some ([], 65535) := rfl
  rw [correct_word_eq_of_scan a input [] thr [] 65535 h]
  rw [if_pos (by have := (thr.getD 0).isLt; omega)]

/-- C10: whenever `correct_word` returns at all and reports `word = Some w`,
the word `w` is one of the supplied candidates: `best` is only ever assigned
from the scanned options, and the initial empty `best` can only be reported
together with the sentinel distance 65535, which never clears the `u8`
threshold. -/
theorem correct_word_member (a : Algorithm) (input : List Char)
    (options : List (List Char)) (thr : Option (Fin 256)) (r : CorrectWord) (w : List Char)
    (h : correct_word a input options thr = some r) (hw : r.word = some w) :
    w ∈ options := by
  cases hs : scanBest a input options [] 65535 with
  | none =>
    unfold correct_word at h
    simp only [hs] at h
    exact Option.noConfusion h
  | some bd =>
    obtain ⟨b, d⟩ := bd
    rw [correct_word_eq_of_scan a input options thr b d hs] at h
    by_cases hc : ((thr.getD 0 : Fin 256) : Nat) < d
    · rw [if_pos hc] at h
      cases h
      exact absurd hw (by simp)
    · rw [if_neg hc] at h
      cases h
      have hbw : b = w := Option.some.inj hw
      rcases scanBest_mem options [] 65535 b d hs with ⟨_, hd0⟩ | hmem
      · have hlt : ((thr.getD 0 : Fin 256) : Nat) < d := by
          have := (thr.getD 0).isLt
          omega
        exact absurd hlt hc
      · rw [← hbw]
        exact hmem

/-- Witness for C10 at a concrete input: the word returned for input `"hilo"`
over candidates `["hello", "world"]` with threshold 5 is `"hello"`, which is
a member of the candidate list. -/
theorem correct_word_member_witness :
    ['h', 'e', 'l', 'l', 'o'] ∈ [['h', 'e', 'l', 'l', 'o'], ['w', 'o', 'r', 'l', 'd']] :=
  correct_word_member Algorithm.Levenshtein ['h', 'i', 'l', 'o']
    [['h', 'e', 'l', 'l', 'o'], ['w', 'o', 'r', 'l', 'd']] (some 5)
    { word := some ['h', 'e', 'l', 'l', 'o'], confidence := 2 } ['h', 'e', 'l', 'l', 'o']
    (by decide) rfl
